import Mathlib

/-!
Verification of the version-control core specified for the
git-operations-demo repository.  The repository's own Python files are
thin wrappers around an external `git` executable; the specification
defines a self-contained content-addressable core (Object Store, Ref
Store, Commit Graph, Merge Engine, Repository facade).  That core is not
present under src/, so it is modelled here from the specification text.
The two Python functions that do carry checkable behaviour
(`run_git_command` in src/git.py and `GitRemoteManager.clone_repository`
in src/remote_demo/remote_operations.py) are embedded directly from the
source at the end of the definitions section.
-/

namespace VC

/-- Modelled from the spec: the error taxonomy of section 7 (the parts the
claims exercise).  `Conflicted` is a normal outcome variant, not an error. -/
inductive CoreError where
  | NotFound
  | RefNotFound
  | BranchExists
  | NoChanges
  | NoCommonAncestor
  | UnrelatedHistories
deriving DecidableEq, Repr

/-- Modelled from the spec: the kind of a tree entry, blob or tree. -/
inductive EntryKind where
  | blob
  | tree
deriving DecidableEq, Repr

/-- Modelled from the spec: TreeEntry = (name, mode, target hash, kind).
Hashes are natural numbers here. -/
structure TreeEntry where
  name : String
  mode : Nat
  target : Nat
  kind : EntryKind
deriving DecidableEq, Repr

/-- Modelled from the spec: Commit = (tree hash, parent hashes, author,
message, timestamp). -/
structure Commit where
  tree : Nat
  parents : List Nat
  author : String
  message : String
  timestamp : Nat
deriving DecidableEq, Repr

/-- Modelled from the spec: a stored object is a blob (byte sequence),
a tree (sequence of entries with unique names), or a commit. -/
inductive GitObject where
  | blob (content : List Nat)
  | tree (entries : List TreeEntry)
  | commit (c : Commit)
deriving DecidableEq, Repr

/-- Byte view of a string, used by the canonical serialization. -/
def strBytes (s : String) : List Nat := s.data.map Char.toNat

/-- Canonical serialization of one tree entry, with separators. -/
def serEntry (e : TreeEntry) : List Nat :=
  strBytes e.name ++ [999, e.mode, e.target, (match e.kind with | .blob => 0 | .tree => 1), 998]

/-- Canonical serialization of a list of tree entries. -/
def serEntries : List TreeEntry → List Nat
  | [] => []
  | e :: rest => serEntry e ++ serEntries rest

/-- Canonical serialization of an object's fields (without the kind tag). -/
def serObject : GitObject → List Nat
  | .blob bs => bs
  | .tree es => serEntries es
  | .commit c =>
      c.tree :: (c.parents ++ [997] ++ strBytes c.author ++ [996] ++ strBytes c.message
        ++ [995, c.timestamp])

/-- One step of the rolling digest. -/
def mixHash (acc b : Nat) : Nat := acc * 1000003 + b + 1

/-- Numeric kind tag of an object: 0 blob, 1 tree, 2 commit. -/
def kindNum : GitObject → Nat
  | .blob _ => 0
  | .tree _ => 1
  | .commit _ => 2

/-- Modelled from the spec: the content hash is a deterministic digest of
the canonical serialization that includes the object-kind tag, so objects
of different kinds never collide: the tag is the residue mod 3. -/
def hashObject (o : GitObject) : Nat :=
  ((serObject o).foldl mixHash 7) * 3 + kindNum o

/-- Association lookup with Nat keys (first binding wins). -/
def assocFind : List (Nat × GitObject) → Nat → Option GitObject
  | [], _ => none
  | (k, v) :: rest, h => if h = k then some v else assocFind rest h

/-- Modelled from the spec: the Object Store, content-addressed storage of
immutable objects keyed by content hash.  Stored as an association list;
`put` only ever prepends, so stored objects are never mutated or deleted. -/
structure ObjectStore where
  objects : List (Nat × GitObject)
deriving DecidableEq, Repr

def ObjectStore.lookupH (s : ObjectStore) (h : Nat) : Option GitObject :=
  assocFind s.objects h

def ObjectStore.containsB (s : ObjectStore) (h : Nat) : Bool :=
  (s.lookupH h).isSome

/-- Modelled from the spec: `get` fails with NotFound if absent. -/
def ObjectStore.get (s : ObjectStore) (h : Nat) : Except CoreError GitObject :=
  match s.lookupH h with
  | some o => .ok o
  | none => .error .NotFound

/-- Modelled from the spec: `put` stores content if absent; storing
identical content twice returns the same hash and performs no duplicate
write. -/
def ObjectStore.put (s : ObjectStore) (o : GitObject) : Nat × ObjectStore :=
  if s.containsB (hashObject o) then (hashObject o, s)
  else (hashObject o, ⟨(hashObject o, o) :: s.objects⟩)

def ObjectStore.size (s : ObjectStore) : Nat := s.objects.length

/-- Association lookup with String keys (first binding wins). -/
def assocFindS : List (String × Nat) → String → Option Nat
  | [], _ => none
  | (k, v) :: rest, n => if n = k then some v else assocFindS rest n

/-- Modelled from the spec: the Ref Store, a mutable mapping from branch
names to commit hashes; `set` creates or overwrites, `get` fails with
RefNotFound. -/
structure RefStore where
  refs : List (String × Nat)
deriving DecidableEq, Repr

def RefStore.get (r : RefStore) (n : String) : Except CoreError Nat :=
  match assocFindS r.refs n with
  | some h => .ok h
  | none => .error .RefNotFound

def RefStore.set (r : RefStore) (n : String) (h : Nat) : RefStore :=
  ⟨(n, h) :: r.refs⟩

/-- Modelled from the spec: Commit Graph `parents` query, read-only over
the Object Store. -/
def parentsOf (s : ObjectStore) (h : Nat) : List Nat :=
  match s.get h with
  | .ok (.commit c) => c.parents
  | _ => []

/-- Fuel-bounded ancestry: a is reachable from b by following parent
edges, reflexively.  The facade calls it with fuel larger than the store,
which covers every ancestor chain of a well-formed (acyclic) store. -/
def isAncestorFuel (s : ObjectStore) : Nat → Nat → Nat → Bool
  | 0, _, _ => false
  | n + 1, a, b =>
      if a = b then true else (parentsOf s b).any (fun p => isAncestorFuel s n a p)

/-- Modelled from the spec: `isAncestor(a, b)`, true if a is reachable
from b by parent edges; reflexive. -/
def isAncestor (s : ObjectStore) (a b : Nat) : Bool :=
  isAncestorFuel s (s.size + 1) a b

/-- Concatenation of a list of lists. -/
def concatAll : List (List Nat) → List Nat
  | [] => []
  | l :: rest => l ++ concatAll rest

/-- Fuel-bounded list of all ancestors of h (reflexively), with
possible duplicates. -/
def ancestorsFuel (s : ObjectStore) : Nat → Nat → List Nat
  | 0, _ => []
  | n + 1, h => h :: concatAll ((parentsOf s h).map (fun p => ancestorsFuel s n p))

def ancestors (s : ObjectStore) (h : Nat) : List Nat :=
  ancestorsFuel s (s.size + 1) h

/-- Boolean membership on hash lists. -/
def memB (x : Nat) : List Nat → Bool
  | [] => false
  | y :: rest => if x = y then true else memB x rest

/-- Modelled from the spec: the common ancestors of a and b. -/
def commonAncestors (s : ObjectStore) (a b : Nat) : List Nat :=
  (ancestors s a).filter (fun c => memB c (ancestors s b))

/-- Minimum of two optional hop counts. -/
def minHop : Option Nat → Option Nat → Option Nat
  | none, y => y
  | some m, none => some m
  | some m, some k => some (min m k)

/-- Fuel-bounded fewest parent-hops from a to t. -/
def hopsFuel (s : ObjectStore) : Nat → Nat → Nat → Option Nat
  | 0, _, _ => none
  | n + 1, a, t =>
      if a = t then some 0
      else (parentsOf s a).foldl
        (fun acc p => minHop acc ((hopsFuel s n p t).map (fun d => d + 1))) none

def hops (s : ObjectStore) (a t : Nat) : Option Nat :=
  hopsFuel s (s.size + 1) a t

/-- Tie-break key of a merge-base candidate c: fewest parent-hops from a,
then the hash itself. -/
def baseKey (s : ObjectStore) (a c : Nat) : Nat × Nat :=
  ((hops s a c).getD (s.size + 1), c)

/-- Strict lexicographic comparison of tie-break keys. -/
def keyLt (k1 k2 : Nat × Nat) : Bool :=
  k1.1 < k2.1 || (k1.1 == k2.1 && k1.2 < k2.2)

/-- Modelled from the spec: `mergeBase(a, b)` picks, among the common
ancestors, one with no other common ancestor reachable from it,
deterministically tie-broken by fewest parent-hops from a and then by the
smallest hash; it fails with NoCommonAncestor on disjoint histories. -/
def mergeBase (s : ObjectStore) (a b : Nat) : Except CoreError Nat :=
  let common := commonAncestors s a b
  let lowest := common.filter
    (fun c => !(common.any (fun d => decide (d ≠ c) && isAncestor s d c)))
  match (if lowest.isEmpty then common else lowest) with
  | [] => .error .NoCommonAncestor
  | c :: rest =>
      .ok (rest.foldl (fun best x => if keyLt (baseKey s a x) (baseKey s a best) then x else best) c)

/-- A conflict record of the Merge Engine: the path together with the
three-sided entries (absent sides are none). -/
structure Conflict where
  path : String
  base : Option TreeEntry
  ours : Option TreeEntry
  theirs : Option TreeEntry
deriving DecidableEq, Repr

/-- Modelled from the spec: fast-forward and already-up-to-date results are
reported distinctly from a true three-way merge in the result type. -/
inductive CleanKind where
  | fastForward
  | alreadyUpToDate
  | threeWay
deriving DecidableEq, Repr

/-- Modelled from the spec: MergeOutcome is either Clean (with the merged
tree hash) or Conflicted (with the conflicting paths and their
three-sided entries). -/
inductive MergeOutcome where
  | Clean (tree : Nat) (kind : CleanKind)
  | Conflicted (conflicts : List Conflict)
deriving DecidableEq, Repr

/-- First entry of the given name in a tree's entry list. -/
def findEntry : List TreeEntry → String → Option TreeEntry
  | [], _ => none
  | e :: rest, n => if e.name = n then some e else findEntry rest n

/-- Modelled from the spec: a side of a path is classified by its entry:
absent, or the pair (kind, content-hash). -/
def entrySig (e : Option TreeEntry) : Option (EntryKind × Nat) :=
  e.map (fun x => (x.kind, x.target))

/-- Both sides carry a tree-kind entry (the only case the engine recurses
into). -/
def bothTrees (oE tE : Option TreeEntry) : Bool :=
  match oE, tE with
  | some x, some y => x.kind = EntryKind.tree && y.kind = EntryKind.tree
  | _, _ => false

/-- The child entries of an optional entry: the stored tree it points to
when it is tree-kind, empty otherwise. -/
def subTreeOf (s : ObjectStore) (e : Option TreeEntry) : List TreeEntry :=
  match e with
  | some x =>
      if x.kind = EntryKind.tree then
        match s.get x.target with
        | .ok (.tree es) => es
        | _ => []
      else []
  | none => []

def modeOf (e : Option TreeEntry) : Nat :=
  match e with
  | some x => x.mode
  | none => 0

/-- Name-deduplication keeping first occurrences. -/
def dedupAcc : List String → List String → List String
  | [], _ => []
  | n :: rest, seen =>
      if seen.contains n then dedupAcc rest seen else n :: dedupAcc rest (n :: seen)

/-- Modelled from the spec: the union of the paths present in the base,
ours and theirs trees. -/
def unionNames (b o t : List TreeEntry) : List String :=
  dedupAcc (b.map (fun e => e.name) ++ o.map (fun e => e.name) ++ t.map (fun e => e.name)) []

/-- Modelled from the spec, one path of the three-way walk: classify the
path by comparing the entry across base/ours/theirs; keep base when both
sides are unchanged, take the changed side, take either on identical
change, recurse into two tree-kind entries that changed differently, and
record a conflict otherwise (including delete-versus-modify and
kind-mismatch).  `recur` merges child trees; it returns the grown store,
the merged entries and the conflicts. -/
def mergeOne
    (recur : ObjectStore → List TreeEntry → List TreeEntry → List TreeEntry → String →
      ObjectStore × List TreeEntry × List Conflict)
    (s : ObjectStore) (b o t : List TreeEntry) (pathAbove n : String) :
    ObjectStore × List TreeEntry × List Conflict :=
  let bE := findEntry b n
  let oE := findEntry o n
  let tE := findEntry t n
  if entrySig oE = entrySig bE ∧ entrySig tE = entrySig bE then (s, bE.toList, [])
  else if entrySig oE = entrySig bE then (s, tE.toList, [])
  else if entrySig tE = entrySig bE then (s, oE.toList, [])
  else if entrySig oE = entrySig tE then (s, oE.toList, [])
  else if bothTrees oE tE then
    let sub := recur s (subTreeOf s bE) (subTreeOf s oE) (subTreeOf s tE) (pathAbove ++ n ++ "/")
    if sub.2.2.isEmpty then
      let pt := sub.1.put (GitObject.tree sub.2.1)
      (pt.2, [⟨n, modeOf oE, pt.1, EntryKind.tree⟩], [])
    else (sub.1, [], sub.2.2)
  else (s, [], [⟨pathAbove ++ n, bE, oE, tE⟩])

/-- The three-way walk over a list of path names, threading the store. -/
def mergeNamesF
    (recur : ObjectStore → List TreeEntry → List TreeEntry → List TreeEntry → String →
      ObjectStore × List TreeEntry × List Conflict)
    (b o t : List TreeEntry) (pathAbove : String) :
    List String → ObjectStore → ObjectStore × List TreeEntry × List Conflict
  | [], s => (s, [], [])
  | n :: rest, s =>
      let st := mergeOne recur s b o t pathAbove n
      let rst := mergeNamesF recur b o t pathAbove rest st.1
      (rst.1, st.2.1 ++ rst.2.1, st.2.2 ++ rst.2.2)

/-- Modelled from the spec: the recursive three-way merge of tree entry
lists, fuel-bounded by tree depth (the facade passes fuel larger than the
store, which covers every well-formed tree). -/
def mergeEntriesFuel : Nat → ObjectStore → List TreeEntry → List TreeEntry → List TreeEntry →
    String → ObjectStore × List TreeEntry × List Conflict
  | 0, s, _, _, _, _ => (s, [], [])
  | n + 1, s, b, o, t, pathAbove =>
      mergeNamesF (fun s2 b2 o2 t2 p2 => mergeEntriesFuel n s2 b2 o2 t2 p2)
        b o t pathAbove (unionNames b o t) s

/-- Load a commit object, failing with NotFound when the hash is absent or
not commit-kind. -/
def loadCommit (s : ObjectStore) (h : Nat) : Except CoreError Commit :=
  match s.get h with
  | .ok (.commit c) => .ok c
  | .ok _ => .error .NotFound
  | .error e => .error e

/-- Load a tree object's entries, failing with NotFound when the hash is
absent or not tree-kind. -/
def loadTreeEntries (s : ObjectStore) (h : Nat) : Except CoreError (List TreeEntry) :=
  match s.get h with
  | .ok (.tree es) => .ok es
  | .ok _ => .error .NotFound
  | .error e => .error e

/-- Modelled from the spec: the repository handle composing the Object
Store and the Ref Store. -/
structure Repo where
  store : ObjectStore
  refs : RefStore
deriving DecidableEq, Repr

/-- Modelled from the spec: facade `commit`.  It requires the target tree
to be stored, fails with NoChanges when the branch exists and its tip
already has that tree, and otherwise stores a new commit (child of the
tip when the branch exists, a root commit otherwise) and moves the ref. -/
def Repo.commit (r : Repo) (branch : String) (treeH : Nat) (msg author : String) (ts : Nat) :
    Except CoreError (Nat × Repo) :=
  match r.store.get treeH with
  | .ok (.tree _) =>
    (match r.refs.get branch with
    | .ok tip =>
      (match loadCommit r.store tip with
      | .ok tc =>
        if tc.tree = treeH then .error .NoChanges
        else
          let pc := r.store.put (GitObject.commit ⟨treeH, [tip], author, msg, ts⟩)
          .ok (pc.1, { store := pc.2, refs := r.refs.set branch pc.1 })
      | .error e => .error e)
    | .error _ =>
        let pc := r.store.put (GitObject.commit ⟨treeH, [], author, msg, ts⟩)
        .ok (pc.1, { store := pc.2, refs := r.refs.set branch pc.1 }))
  | _ => .error .NotFound

/-- True when the hash is stored and commit-kind. -/
def isCommitHash (s : ObjectStore) (h : Nat) : Bool :=
  match s.lookupH h with
  | some (.commit _) => true
  | _ => false

/-- Modelled from the spec: facade `createBranch`, failing with
BranchExists when the name is taken; it refuses to point a ref at a
nonexistent commit. -/
def Repo.createBranch (r : Repo) (name : String) (fromCommit : Nat) : Except CoreError Repo :=
  match r.refs.get name with
  | .ok _ => .error .BranchExists
  | .error _ =>
      if isCommitHash r.store fromCommit then .ok { r with refs := r.refs.set name fromCommit }
      else .error .NotFound

/-- Modelled from the spec: facade `merge`.  It resolves both branch tips,
computes the merge base (failing with UnrelatedHistories when there is
none), fast-forwards when the base is one of the tips, and otherwise runs
the three-way tree walk; a clean walk stores the merged tree and a
two-parent merge commit and moves the ref, while a conflicted walk
returns the conflict list and leaves the repository untouched. -/
def Repo.merge (r : Repo) (intoB fromB : String) (author msg : String) (ts : Nat) :
    Except CoreError (MergeOutcome × Repo) :=
  match r.refs.get intoB with
  | .error e => .error e
  | .ok oursTip =>
  match r.refs.get fromB with
  | .error e => .error e
  | .ok theirsTip =>
  match mergeBase r.store oursTip theirsTip with
  | .error _ => .error .UnrelatedHistories
  | .ok base =>
  if base = oursTip then
    match loadCommit r.store theirsTip with
    | .error e => .error e
    | .ok tc =>
        .ok (.Clean tc.tree .fastForward, { r with refs := r.refs.set intoB theirsTip })
  else if base = theirsTip then
    match loadCommit r.store oursTip with
    | .error e => .error e
    | .ok oc => .ok (.Clean oc.tree .alreadyUpToDate, r)
  else
    match loadCommit r.store base, loadCommit r.store oursTip, loadCommit r.store theirsTip with
    | .ok bc, .ok oc, .ok tc =>
      (match loadTreeEntries r.store bc.tree, loadTreeEntries r.store oc.tree,
          loadTreeEntries r.store tc.tree with
      | .ok bes, .ok oes, .ok tes =>
          let res := mergeEntriesFuel (r.store.size + 1) r.store bes oes tes ""
          if res.2.2.isEmpty then
            let pt := res.1.put (GitObject.tree res.2.1)
            let pc := pt.2.put (GitObject.commit ⟨pt.1, [oursTip, theirsTip], author, msg, ts⟩)
            .ok (.Clean pt.1 .threeWay, { store := pc.2, refs := r.refs.set intoB pc.1 })
          else .ok (.Conflicted res.2.2, r)
      | _, _, _ => .error .NotFound)
    | _, _, _ => .error .NotFound

/-- Modelled from the spec: merge finalization after external conflict
resolution.  The caller supplies replacement content per path; the facade
stores the resolved blobs, a tree of them and a two-parent merge commit,
and only then moves the target branch ref. -/
def Repo.resolveAndCommit (r : Repo) (intoB fromB : String) (author msg : String) (ts : Nat)
    (resolutions : List (String × List Nat)) : Except CoreError (Nat × Repo) :=
  match r.refs.get intoB with
  | .error e => .error e
  | .ok oursTip =>
  match r.refs.get fromB with
  | .error e => .error e
  | .ok theirsTip =>
    let step := resolutions.foldl
      (fun (acc : ObjectStore × List TreeEntry) pr =>
        let pb := acc.1.put (GitObject.blob pr.2)
        (pb.2, acc.2 ++ [⟨pr.1, 644, pb.1, EntryKind.blob⟩]))
      (r.store, [])
    let pt := step.1.put (GitObject.tree step.2)
    let pc := pt.2.put (GitObject.commit ⟨pt.1, [oursTip, theirsTip], author, msg, ts⟩)
    .ok (pc.1, { store := pc.2, refs := r.refs.set intoB pc.1 })

/-- Write-before-reference, per object: every hash a stored object refers
to exists in the store. -/
def objRefsOk (s : ObjectStore) : GitObject → Bool
  | .blob _ => true
  | .tree es => es.all (fun e => s.containsB e.target)
  | .commit c => s.containsB c.tree && c.parents.all (fun p => s.containsB p)

/-- Every entry of the list points at a stored object. -/
def entriesOk (s : ObjectStore) (es : List TreeEntry) : Bool :=
  es.all (fun e => s.containsB e.target)

/-- All stored trees and commits only reference stored hashes. -/
def storeClosed (s : ObjectStore) : Bool :=
  s.objects.all (fun p => objRefsOk s p.2)

/-- Every stored binding's key is the content hash of its object. -/
def contentAddressedB (s : ObjectStore) : Bool :=
  s.objects.all (fun p => p.1 == hashObject p.2)

/-- Every ref binding (current or shadowed) points at a stored commit. -/
def refsOk (s : ObjectStore) (r : RefStore) : Bool :=
  r.refs.all (fun p => isCommitHash s p.2)

/-- Modelled from the spec: the data-model invariants of section 3 —
write-before-reference closure, content addressing, and refs pointing
only at stored commits. -/
def Repo.Inv (r : Repo) : Prop :=
  storeClosed r.store = true ∧ contentAddressedB r.store = true ∧ refsOk r.store r.refs = true

/-- Append-only refinement between stores: every stored binding is still
present, unchanged — stored objects are never mutated or deleted. -/
def StoreLe (s s2 : ObjectStore) : Prop :=
  ∀ h, (s.lookupH h).isSome = true → s2.lookupH h = s.lookupH h

end VC

namespace PyGit

/-- The fields of subprocess.CompletedProcess that src/git.py consumes. -/
structure CompletedProcess where
  stdout : String
  stderr : String
deriving DecidableEq, Repr

/-- The possible outcomes of the subprocess.run call inside
run_git_command (src/git.py, with check=True): a successful exit, a
CalledProcessError carrying stderr, or a FileNotFoundError for a missing
git executable. -/
inductive RunOutcome where
  | success (p : CompletedProcess)
  | nonzeroExit (stderr : String)
  | execNotFound
deriving DecidableEq, Repr

/-- What a call to a Python function does: return a value or raise
GitOperationError with a message.  No other exception type is produced by
run_git_command's body. -/
inductive PyOutcome (α : Type) where
  | returns (a : α)
  | raisesGitOperationError (msg : String)
deriving DecidableEq, Repr

/-- run_git_command from src/git.py: returns the CompletedProcess on
success, converts CalledProcessError into GitOperationError with the
caller-supplied message and the command's stderr, and converts
FileNotFoundError into GitOperationError with a fixed message. -/
def run_git_command (outcome : RunOutcome) (error_message : String) :
    PyOutcome CompletedProcess :=
  match outcome with
  | .success p => .returns p
  | .nonzeroExit st => .raisesGitOperationError (error_message ++ ": " ++ st)
  | .execNotFound => .raisesGitOperationError "Git executable not found. Please install Git."

/-- The state of the repository directory that clone_repository and
ensure_repo_exists (src/remote_demo/remote_operations.py) inspect:
whether the path exists and which entries it holds. -/
structure DirState where
  pathExists : Bool
  entries : List String
deriving DecidableEq, Repr

/-- GitRemoteManager.ensure_repo_exists: creates the directory when
absent, then runs git init when no .git entry exists; `initSucceeds`
tells whether that git init call succeeded (adding the .git entry). -/
def ensure_repo_exists (d : DirState) (initSucceeds : Bool) : DirState :=
  let d1 := if d.pathExists then d else { pathExists := true, entries := [] }
  if d1.entries.contains ".git" then d1
  else if initSucceeds then { d1 with entries := ".git" :: d1.entries } else d1

/-- The observable result of GitRemoteManager.clone_repository: the
returned boolean and whether the git clone subprocess was invoked. -/
structure CloneResult where
  returned : Bool
  invokedClone : Bool
deriving DecidableEq, Repr

/-- GitRemoteManager.clone_repository: returns False without running any
subprocess when the directory exists and is non-empty; otherwise invokes
git clone and returns whether it succeeded. -/
def clone_repository (d : DirState) (_remote_url : String) (cloneSucceeds : Bool) : CloneResult :=
  if d.pathExists && !d.entries.isEmpty then { returned := false, invokedClone := false }
  else { returned := cloneSucceeds, invokedClone := true }

end PyGit

namespace VC

instance {ε α : Type} [DecidableEq ε] [DecidableEq α] : DecidableEq (Except ε α) :=
  fun a b =>
    match a, b with
    | .ok x, .ok y =>
        if h : x = y then .isTrue (by rw [h]) else .isFalse (by intro hc; cases hc; exact h rfl)
    | .error x, .error y =>
        if h : x = y then .isTrue (by rw [h]) else .isFalse (by intro hc; cases hc; exact h rfl)
    | .ok _, .error _ => .isFalse (by intro hc; cases hc)
    | .error _, .ok _ => .isFalse (by intro hc; cases hc)

/-- Does the facade merge report a conflict? -/
def isConflictedOutcome : Except CoreError (MergeOutcome × Repo) → Bool
  | .ok (.Conflicted _, _) => true
  | _ => false

/-- Does the facade merge report a clean three-way merge? -/
def isCleanThreeWay : Except CoreError (MergeOutcome × Repo) → Bool
  | .ok (.Clean _ .threeWay, _) => true
  | _ => false

/-! Concrete repository R1: one file `f` holding "x" at the base, changed
to "y" on main and to "z" on feature — the conflict scenario of the
specification's testable properties. -/

def bxO : GitObject := .blob [120]

def byO : GitObject := .blob [121]

def bzO : GitObject := .blob [122]

def tBO : GitObject := .tree [⟨"f", 644, hashObject bxO, EntryKind.blob⟩]

def tOO : GitObject := .tree [⟨"f", 644, hashObject byO, EntryKind.blob⟩]

def tTO : GitObject := .tree [⟨"f", 644, hashObject bzO, EntryKind.blob⟩]

def cBO : GitObject := .commit ⟨hashObject tBO, [], "au", "base", 1⟩

def cOO : GitObject := .commit ⟨hashObject tOO, [hashObject cBO], "au", "ours", 2⟩

def cTO : GitObject := .commit ⟨hashObject tTO, [hashObject cBO], "au", "theirs", 3⟩

def R1 : Repo :=
  { store := ⟨[(hashObject cTO, cTO), (hashObject cOO, cOO), (hashObject cBO, cBO),
      (hashObject tTO, tTO), (hashObject tOO, tOO), (hashObject tBO, tBO),
      (hashObject bzO, bzO), (hashObject byO, byO), (hashObject bxO, bxO)]⟩,
    refs := ⟨[("main", hashObject cOO), ("feature", hashObject cTO)]⟩ }

/-- The entry lists of R1's base, ours and theirs trees. -/
def besR1 : List TreeEntry := [⟨"f", 644, hashObject bxO, EntryKind.blob⟩]

def oesR1 : List TreeEntry := [⟨"f", 644, hashObject byO, EntryKind.blob⟩]

def tesR1 : List TreeEntry := [⟨"f", 644, hashObject bzO, EntryKind.blob⟩]

/-! Concrete repository R2: the base tree is empty and each side adds a
directory `d` with different contents — both sides add tree-kind entries
that differ, and the engine merges them recursively instead of recording
a conflict at `d`. -/

def b1O : GitObject := .blob [49]

def b2O : GitObject := .blob [50]

def tA1O : GitObject := .tree [⟨"a", 644, hashObject b1O, EntryKind.blob⟩]

def tB1O : GitObject := .tree [⟨"b", 644, hashObject b2O, EntryKind.blob⟩]

def tEmptyO : GitObject := .tree []

def tOurs2O : GitObject := .tree [⟨"d", 755, hashObject tA1O, EntryKind.tree⟩]

def tTheirs2O : GitObject := .tree [⟨"d", 755, hashObject tB1O, EntryKind.tree⟩]

def c2BO : GitObject := .commit ⟨hashObject tEmptyO, [], "au", "base", 1⟩

def c2OO : GitObject := .commit ⟨hashObject tOurs2O, [hashObject c2BO], "au", "ours", 2⟩

def c2TO : GitObject := .commit ⟨hashObject tTheirs2O, [hashObject c2BO], "au", "theirs", 3⟩

def R2 : Repo :=
  { store := ⟨[(hashObject c2TO, c2TO), (hashObject c2OO, c2OO), (hashObject c2BO, c2BO),
      (hashObject tTheirs2O, tTheirs2O), (hashObject tOurs2O, tOurs2O),
      (hashObject tEmptyO, tEmptyO), (hashObject tB1O, tB1O), (hashObject tA1O, tA1O),
      (hashObject b2O, b2O), (hashObject b1O, b1O)]⟩,
    refs := ⟨[("main", hashObject c2OO), ("feature", hashObject c2TO)]⟩ }

def besR2 : List TreeEntry := []

def oesR2 : List TreeEntry := [⟨"d", 755, hashObject tA1O, EntryKind.tree⟩]

def tesR2 : List TreeEntry := [⟨"d", 755, hashObject tB1O, EntryKind.tree⟩]

/-! Concrete repository R3: commit B is a child of commit A; main points
at A and dev points at B — the fast-forward scenario. -/

def baO : GitObject := .blob [97]

def bbO : GitObject := .blob [98]

def tA3O : GitObject := .tree [⟨"f", 644, hashObject baO, EntryKind.blob⟩]

def tB3O : GitObject := .tree [⟨"f", 644, hashObject bbO, EntryKind.blob⟩]

def cA3O : GitObject := .commit ⟨hashObject tA3O, [], "au", "a", 1⟩

def cB3O : GitObject := .commit ⟨hashObject tB3O, [hashObject cA3O], "au", "b", 2⟩

def R3 : Repo :=
  { store := ⟨[(hashObject cB3O, cB3O), (hashObject cA3O, cA3O),
      (hashObject tB3O, tB3O), (hashObject tA3O, tA3O),
      (hashObject bbO, bbO), (hashObject baO, baO)]⟩,
    refs := ⟨[("main", hashObject cA3O), ("dev", hashObject cB3O)]⟩ }

/-! Concrete repository R4: two root commits with no shared ancestor —
disjoint histories. -/

def b41O : GitObject := .blob [51]

def b42O : GitObject := .blob [52]

def t41O : GitObject := .tree [⟨"p", 644, hashObject b41O, EntryKind.blob⟩]

def t42O : GitObject := .tree [⟨"q", 644, hashObject b42O, EntryKind.blob⟩]

def c41O : GitObject := .commit ⟨hashObject t41O, [], "au", "r1", 1⟩

def c42O : GitObject := .commit ⟨hashObject t42O, [], "au", "r2", 2⟩

def R4 : Repo :=
  { store := ⟨[(hashObject c42O, c42O), (hashObject c41O, c41O),
      (hashObject t42O, t42O), (hashObject t41O, t41O),
      (hashObject b42O, b42O), (hashObject b41O, b41O)]⟩,
    refs := ⟨[("main", hashObject c41O), ("other", hashObject c42O)]⟩ }

instance (r : Repo) : Decidable (Repo.Inv r) := by unfold Repo.Inv; infer_instance

/-- The contract a subtree-merging callback of the walk maintains: from a
closed, content-addressed store and entry lists pointing into it, it
extends the store append-only, keeps it closed and content-addressed, and
produces entries pointing into the extended store. -/
def RecurOk (recur : ObjectStore → List TreeEntry → List TreeEntry → List TreeEntry → String →
    ObjectStore × List TreeEntry × List Conflict) : Prop :=
  ∀ s b o t pa, storeClosed s = true → contentAddressedB s = true →
    entriesOk s b = true → entriesOk s o = true → entriesOk s t = true →
    StoreLe s (recur s b o t pa).1 ∧ storeClosed (recur s b o t pa).1 = true ∧
    contentAddressedB (recur s b o t pa).1 = true ∧
    entriesOk (recur s b o t pa).1 (recur s b o t pa).2.1 = true

/-- The commit created when committing R1's theirs tree onto main. -/
def cNewO : GitObject := .commit ⟨hashObject tTO, [hashObject cOO], "a", "m", 7⟩

/-- The repository resulting from that commit. -/
def R1after : Repo :=
  { store := ⟨(hashObject cNewO, cNewO) :: R1.store.objects⟩,
    refs := ⟨("main", hashObject cNewO) :: R1.refs.refs⟩ }

end VC

namespace VC

theorem assocFind_mem {l : List (Nat × GitObject)} {h : Nat} {o : GitObject}
    (he : assocFind l h = some o) : (h, o) ∈ l := by
  induction l with
  | nil => simp [assocFind] at he
  | cons p rest ih =>
      obtain ⟨k, v⟩ := p
      by_cases hk : h = k
      · subst hk
        simp [assocFind] at he
        subst he
        exact List.mem_cons_self _ _
      · simp [assocFind, hk] at he
        exact List.mem_cons_of_mem _ (ih he)

theorem assocFindS_mem {l : List (String × Nat)} {n : String} {h : Nat}
    (he : assocFindS l n = some h) : (n, h) ∈ l := by
  induction l with
  | nil => simp [assocFindS] at he
  | cons p rest ih =>
      obtain ⟨k, v⟩ := p
      by_cases hk : n = k
      · subst hk
        simp [assocFindS] at he
        subst he
        exact List.mem_cons_self _ _
      · simp [assocFindS, hk] at he
        exact List.mem_cons_of_mem _ (ih he)

theorem storeLe_refl (s : ObjectStore) : StoreLe s s := fun _ _ => rfl

theorem storeLe_trans {s1 s2 s3 : ObjectStore} (h12 : StoreLe s1 s2) (h23 : StoreLe s2 s3) :
    StoreLe s1 s3 := by
  intro h hs
  have e12 := h12 h hs
  have hs2 : (s2.lookupH h).isSome = true := by rw [e12]; exact hs
  rw [h23 h hs2, e12]

theorem put_fst (s : ObjectStore) (o : GitObject) : (s.put o).1 = hashObject o := by
  unfold ObjectStore.put
  split <;> rfl

theorem put_le (s : ObjectStore) (o : GitObject) : StoreLe s (s.put o).2 := by
  intro h hs
  unfold ObjectStore.put
  split
  · rfl
  · rename_i hc
    have hne : h ≠ hashObject o := by
      intro he
      subst he
      simp [ObjectStore.containsB, hs] at hc
    simp [ObjectStore.lookupH, assocFind, hne]

theorem le_contains {s s2 : ObjectStore} {h : Nat} (hle : StoreLe s s2)
    (hc : s.containsB h = true) : s2.containsB h = true := by
  unfold ObjectStore.containsB at *
  rw [hle h hc]
  exact hc

theorem le_get {s s2 : ObjectStore} {h : Nat} {o : GitObject} (hle : StoreLe s s2)
    (hg : s.get h = .ok o) : s2.get h = .ok o := by
  unfold ObjectStore.get at *
  cases hl : s.lookupH h with
  | none => rw [hl] at hg; cases hg
  | some v =>
      rw [hl] at hg
      have hs : (s.lookupH h).isSome = true := by rw [hl]; rfl
      rw [hle h hs, hl]
      exact hg

theorem put_contains_self (s : ObjectStore) (o : GitObject) :
    (s.put o).2.containsB (s.put o).1 = true := by
  unfold ObjectStore.put
  split
  · rename_i hc
    exact hc
  · simp [ObjectStore.containsB, ObjectStore.lookupH, assocFind]

theorem kindNum_lt (o : GitObject) : kindNum o < 3 := by
  cases o <;> simp [kindNum]

theorem hashObject_kindNum {o o2 : GitObject} (h : hashObject o = hashObject o2) :
    kindNum o = kindNum o2 := by
  unfold hashObject at h
  have h1 := kindNum_lt o
  have h2 := kindNum_lt o2
  omega

theorem kindNum_commit {o : GitObject} (h : kindNum o = 2) : ∃ c, o = GitObject.commit c := by
  cases o with
  | blob bs => simp [kindNum] at h
  | tree es => simp [kindNum] at h
  | commit c => exact ⟨c, rfl⟩

theorem contentAddressed_lookup {s : ObjectStore} {h : Nat} {o : GitObject}
    (hca : contentAddressedB s = true) (hl : s.lookupH h = some o) : h = hashObject o := by
  have hm := assocFind_mem hl
  unfold contentAddressedB at hca
  rw [List.all_eq_true] at hca
  have := hca _ hm
  simpa using this

theorem contentAddressed_put {s : ObjectStore} (o : GitObject)
    (hca : contentAddressedB s = true) : contentAddressedB (s.put o).2 = true := by
  unfold ObjectStore.put
  split
  · exact hca
  · unfold contentAddressedB at *
    simp only [List.all_cons, Bool.and_eq_true]
    exact ⟨by simp, hca⟩

theorem put_lookup_self_kind {s : ObjectStore} (o : GitObject)
    (hca : contentAddressedB s = true) :
    ∃ o2, (s.put o).2.lookupH (s.put o).1 = some o2 ∧ kindNum o2 = kindNum o := by
  unfold ObjectStore.put
  split
  · rename_i hc
    unfold ObjectStore.containsB at hc
    cases hl : s.lookupH (hashObject o) with
    | none => rw [hl] at hc; simp at hc
    | some v =>
        refine ⟨v, rfl, ?_⟩
        have := contentAddressed_lookup hca hl
        exact (hashObject_kindNum this).symm
  · exact ⟨o, by simp [ObjectStore.lookupH, assocFind], rfl⟩


theorem entriesOk_le {s s2 : ObjectStore} {es : List TreeEntry} (hle : StoreLe s s2)
    (h : entriesOk s es = true) : entriesOk s2 es = true := by
  unfold entriesOk at *
  rw [List.all_eq_true] at *
  intro e he
  exact le_contains hle (h e he)

theorem objRefsOk_le {s s2 : ObjectStore} {o : GitObject} (hle : StoreLe s s2)
    (h : objRefsOk s o = true) : objRefsOk s2 o = true := by
  cases o with
  | blob bs => rfl
  | tree es =>
      unfold objRefsOk at *
      rw [List.all_eq_true] at *
      intro e he
      exact le_contains hle (h e he)
  | commit c =>
      unfold objRefsOk at *
      rw [Bool.and_eq_true] at *
      refine ⟨le_contains hle h.1, ?_⟩
      rw [List.all_eq_true] at *
      intro p hp
      exact le_contains hle (h.2 p hp)

theorem storeClosed_lookup {s : ObjectStore} {h : Nat} {o : GitObject}
    (hcl : storeClosed s = true) (hl : s.lookupH h = some o) : objRefsOk s o = true := by
  unfold storeClosed at hcl
  rw [List.all_eq_true] at hcl
  exact hcl _ (assocFind_mem hl)

theorem storeClosed_put {s : ObjectStore} {o : GitObject} (hcl : storeClosed s = true)
    (ho : objRefsOk s o = true) : storeClosed (s.put o).2 = true := by
  have hle := put_le s o
  by_cases hc : s.containsB (hashObject o) = true
  · unfold ObjectStore.put
    rw [if_pos hc]
    exact hcl
  · unfold ObjectStore.put at hle ⊢
    rw [if_neg hc] at hle ⊢
    unfold storeClosed at hcl ⊢
    simp only [List.all_cons, Bool.and_eq_true]
    refine ⟨objRefsOk_le hle ho, ?_⟩
    rw [List.all_eq_true] at hcl ⊢
    intro p hp
    exact objRefsOk_le hle (hcl p hp)

theorem isCommitHash_le {s s2 : ObjectStore} {h : Nat} (hle : StoreLe s s2)
    (hc : isCommitHash s h = true) : isCommitHash s2 h = true := by
  unfold isCommitHash at *
  cases hl : s.lookupH h with
  | none => rw [hl] at hc; simp at hc
  | some v =>
      have hs : (s.lookupH h).isSome = true := by rw [hl]; rfl
      rw [hle h hs, hl]
      rw [hl] at hc
      exact hc

theorem isCommitHash_containsB {s : ObjectStore} {h : Nat} (hc : isCommitHash s h = true) :
    s.containsB h = true := by
  unfold isCommitHash at hc
  unfold ObjectStore.containsB
  cases hl : s.lookupH h with
  | none => rw [hl] at hc; simp at hc
  | some v => rfl

theorem isCommitHash_put_commit {s : ObjectStore} (c : Commit)
    (hca : contentAddressedB s = true) :
    isCommitHash (s.put (GitObject.commit c)).2 (s.put (GitObject.commit c)).1 = true := by
  obtain ⟨o2, hl, hk⟩ := put_lookup_self_kind (GitObject.commit c) hca
  obtain ⟨c2, hc2⟩ := kindNum_commit (o := o2) (by rw [hk]; rfl)
  unfold isCommitHash
  rw [hl, hc2]

theorem refsOk_le {s s2 : ObjectStore} {rf : RefStore} (hle : StoreLe s s2)
    (h : refsOk s rf = true) : refsOk s2 rf = true := by
  unfold refsOk at *
  rw [List.all_eq_true] at *
  intro p hp
  exact isCommitHash_le hle (h p hp)

theorem refsOk_set {s : ObjectStore} {rf : RefStore} {n : String} {h : Nat}
    (hr : refsOk s rf = true) (hc : isCommitHash s h = true) :
    refsOk s (rf.set n h) = true := by
  unfold refsOk RefStore.set at *
  simp only [List.all_cons, Bool.and_eq_true]
  exact ⟨hc, hr⟩

theorem refsOk_get {s : ObjectStore} {rf : RefStore} {n : String} {h : Nat}
    (hr : refsOk s rf = true) (hg : rf.get n = .ok h) : isCommitHash s h = true := by
  unfold RefStore.get at hg
  cases hl : assocFindS rf.refs n with
  | none => rw [hl] at hg; cases hg
  | some v =>
      rw [hl] at hg
      cases hg
      unfold refsOk at hr
      rw [List.all_eq_true] at hr
      exact hr _ (assocFindS_mem hl)

theorem findEntry_mem {l : List TreeEntry} {n : String} {e : TreeEntry}
    (h : findEntry l n = some e) : e ∈ l := by
  induction l with
  | nil => simp [findEntry] at h
  | cons x rest ih =>
      by_cases hx : x.name = n
      · simp [findEntry, hx] at h
        subst h
        exact List.mem_cons_self _ _
      · simp [findEntry, hx] at h
        exact List.mem_cons_of_mem _ (ih h)

theorem entriesOk_find {s : ObjectStore} {l : List TreeEntry} {n : String} {e : TreeEntry}
    (h : entriesOk s l = true) (hf : findEntry l n = some e) : s.containsB e.target = true := by
  unfold entriesOk at h
  rw [List.all_eq_true] at h
  exact h e (findEntry_mem hf)

theorem entriesOk_toList {s : ObjectStore} {l : List TreeEntry} {n : String}
    (h : entriesOk s l = true) : entriesOk s (findEntry l n).toList = true := by
  cases hf : findEntry l n with
  | none => rfl
  | some e =>
      unfold entriesOk
      simp only [Option.toList, List.all_cons, List.all_nil, Bool.and_true]
      exact entriesOk_find h hf

theorem entriesOk_subTreeOf {s : ObjectStore} (e : Option TreeEntry)
    (hcl : storeClosed s = true) : entriesOk s (subTreeOf s e) = true := by
  cases e with
  | none => rfl
  | some x =>
      by_cases hk : x.kind = EntryKind.tree
      · cases hget : s.get x.target with
        | error e2 => simp [subTreeOf, hk, hget, entriesOk]
        | ok v =>
            cases v with
            | blob bs => simp [subTreeOf, hk, hget, entriesOk]
            | tree es =>
                have h2 : subTreeOf s (some x) = es := by simp [subTreeOf, hk, hget]
                rw [h2]
                unfold ObjectStore.get at hget
                cases hl : s.lookupH x.target with
                | none => rw [hl] at hget; cases hget
                | some w =>
                    rw [hl] at hget
                    cases hget
                    exact storeClosed_lookup hcl hl
            | commit c => simp [subTreeOf, hk, hget, entriesOk]
      · simp [subTreeOf, hk, entriesOk]

theorem entriesOk_append {s : ObjectStore} {l1 l2 : List TreeEntry}
    (h1 : entriesOk s l1 = true) (h2 : entriesOk s l2 = true) :
    entriesOk s (l1 ++ l2) = true := by
  unfold entriesOk at *
  rw [List.all_eq_true] at *
  intro e he
  rcases List.mem_append.mp he with hm | hm
  · exact h1 e hm
  · exact h2 e hm

theorem mergeOne_closure {recur : ObjectStore → List TreeEntry → List TreeEntry →
    List TreeEntry → String → ObjectStore × List TreeEntry × List Conflict}
    (hrec : RecurOk recur) (s : ObjectStore) (b o t : List TreeEntry) (pa n : String)
    (hcl : storeClosed s = true) (hca : contentAddressedB s = true)
    (hb : entriesOk s b = true) (ho : entriesOk s o = true) (ht : entriesOk s t = true) :
    StoreLe s (mergeOne recur s b o t pa n).1 ∧
    storeClosed (mergeOne recur s b o t pa n).1 = true ∧
    contentAddressedB (mergeOne recur s b o t pa n).1 = true ∧
    entriesOk (mergeOne recur s b o t pa n).1 (mergeOne recur s b o t pa n).2.1 = true := by
  simp only [mergeOne]
  split
  · exact ⟨storeLe_refl s, hcl, hca, entriesOk_toList hb⟩
  · split
    · exact ⟨storeLe_refl s, hcl, hca, entriesOk_toList ht⟩
    · split
      · exact ⟨storeLe_refl s, hcl, hca, entriesOk_toList ho⟩
      · split
        · exact ⟨storeLe_refl s, hcl, hca, entriesOk_toList ho⟩
        · split
          · obtain ⟨hle1, hcl1, hca1, hes1⟩ := hrec s (subTreeOf s (findEntry b n))
              (subTreeOf s (findEntry o n)) (subTreeOf s (findEntry t n)) (pa ++ n ++ "/")
              hcl hca (entriesOk_subTreeOf _ hcl) (entriesOk_subTreeOf _ hcl)
              (entriesOk_subTreeOf _ hcl)
            split
            · refine ⟨storeLe_trans hle1 (put_le _ _), storeClosed_put hcl1 hes1,
                contentAddressed_put _ hca1, ?_⟩
              unfold entriesOk
              simp only [List.all_cons, List.all_nil, Bool.and_true]
              exact put_contains_self _ _
            · exact ⟨hle1, hcl1, hca1, rfl⟩
          · exact ⟨storeLe_refl s, hcl, hca, rfl⟩

theorem mergeNamesF_closure {recur : ObjectStore → List TreeEntry → List TreeEntry →
    List TreeEntry → String → ObjectStore × List TreeEntry × List Conflict}
    (hrec : RecurOk recur) (b o t : List TreeEntry) (pa : String) :
    ∀ (names : List String) (s : ObjectStore), storeClosed s = true →
    contentAddressedB s = true → entriesOk s b = true → entriesOk s o = true →
    entriesOk s t = true →
    StoreLe s (mergeNamesF recur b o t pa names s).1 ∧
    storeClosed (mergeNamesF recur b o t pa names s).1 = true ∧
    contentAddressedB (mergeNamesF recur b o t pa names s).1 = true ∧
    entriesOk (mergeNamesF recur b o t pa names s).1
      (mergeNamesF recur b o t pa names s).2.1 = true := by
  intro names
  induction names with
  | nil =>
      intro s hcl hca hb ho ht
      exact ⟨storeLe_refl s, hcl, hca, rfl⟩
  | cons n rest ih =>
      intro s hcl hca hb ho ht
      obtain ⟨hle1, hcl1, hca1, hes1⟩ := mergeOne_closure hrec s b o t pa n hcl hca hb ho ht
      obtain ⟨hle2, hcl2, hca2, hes2⟩ := ih (mergeOne recur s b o t pa n).1 hcl1 hca1
        (entriesOk_le hle1 hb) (entriesOk_le hle1 ho) (entriesOk_le hle1 ht)
      simp only [mergeNamesF]
      exact ⟨storeLe_trans hle1 hle2, hcl2, hca2,
        entriesOk_append (entriesOk_le hle2 hes1) hes2⟩

theorem mergeEntriesFuel_closure (fuel : Nat) :
    RecurOk (fun s b o t pa => mergeEntriesFuel fuel s b o t pa) := by
  induction fuel with
  | zero =>
      intro s b o t pa hcl hca hb ho ht
      exact ⟨storeLe_refl s, hcl, hca, rfl⟩
  | succ n ih =>
      intro s b o t pa hcl hca hb ho ht
      have h := mergeNamesF_closure ih b o t pa (unionNames b o t) s hcl hca hb ho ht
      simpa [mergeEntriesFuel] using h

theorem mergeOne_conflictCase {recur : ObjectStore → List TreeEntry → List TreeEntry →
    List TreeEntry → String → ObjectStore × List TreeEntry × List Conflict}
    {s : ObjectStore} {b o t : List TreeEntry} {pa n : String}
    (h1 : entrySig (findEntry o n) ≠ entrySig (findEntry b n))
    (h2 : entrySig (findEntry t n) ≠ entrySig (findEntry b n))
    (h3 : entrySig (findEntry o n) ≠ entrySig (findEntry t n))
    (h4 : bothTrees (findEntry o n) (findEntry t n) = false) :
    mergeOne recur s b o t pa n =
      (s, [], [⟨pa ++ n, findEntry b n, findEntry o n, findEntry t n⟩]) := by
  simp only [mergeOne]
  rw [if_neg (fun hand => h1 hand.1), if_neg h1, if_neg h2, if_neg h3,
    if_neg (by simp [h4])]

theorem mergeNamesF_conflict_mem {recur : ObjectStore → List TreeEntry → List TreeEntry →
    List TreeEntry → String → ObjectStore × List TreeEntry × List Conflict}
    {b o t : List TreeEntry} {pa : String} :
    ∀ (names : List String) (s : ObjectStore) (n : String), n ∈ names →
    entrySig (findEntry o n) ≠ entrySig (findEntry b n) →
    entrySig (findEntry t n) ≠ entrySig (findEntry b n) →
    entrySig (findEntry o n) ≠ entrySig (findEntry t n) →
    bothTrees (findEntry o n) (findEntry t n) = false →
    Conflict.mk (pa ++ n) (findEntry b n) (findEntry o n) (findEntry t n) ∈
      (mergeNamesF recur b o t pa names s).2.2 := by
  intro names
  induction names with
  | nil =>
      intro s n hmem
      cases hmem
  | cons m rest ih =>
      intro s n hmem h1 h2 h3 h4
      simp only [mergeNamesF]
      rcases List.mem_cons.mp hmem with he | hm
      · subst he
        rw [mergeOne_conflictCase h1 h2 h3 h4]
        exact List.mem_append_left _ (List.mem_cons_self _ _)
      · exact List.mem_append_right _ (ih _ n hm h1 h2 h3 h4)

theorem mem_concatAll {c : Nat} : ∀ {ls : List (List Nat)}, c ∈ concatAll ls →
    ∃ l, l ∈ ls ∧ c ∈ l := by
  intro ls
  induction ls with
  | nil => intro hc; cases hc
  | cons l rest ih =>
      intro hc
      rcases List.mem_append.mp hc with hm | hm
      · exact ⟨l, List.mem_cons_self _ _, hm⟩
      · obtain ⟨l2, hl2, hcl2⟩ := ih hm
        exact ⟨l2, List.mem_cons_of_mem _ hl2, hcl2⟩

theorem mem_ancestorsFuel {s : ObjectStore} :
    ∀ {n : Nat} {c h : Nat}, c ∈ ancestorsFuel s n h → isAncestorFuel s n c h = true := by
  intro n
  induction n with
  | zero =>
      intro c h hc
      cases hc
  | succ m ih =>
      intro c h hc
      simp only [ancestorsFuel] at hc
      simp only [isAncestorFuel]
      rcases List.mem_cons.mp hc with he | hm
      · subst he
        simp
      · obtain ⟨l, hl, hcl⟩ := mem_concatAll hm
        obtain ⟨p, hp, hpe⟩ := List.mem_map.mp hl
        subst hpe
        by_cases hch : c = h
        · simp [hch]
        · rw [if_neg hch, List.any_eq_true]
          exact ⟨p, hp, ih hcl⟩

theorem memB_mem {x : Nat} : ∀ {l : List Nat}, memB x l = true → x ∈ l := by
  intro l
  induction l with
  | nil => intro hm; simp [memB] at hm
  | cons y rest ih =>
      intro hm
      by_cases hxy : x = y
      · subst hxy
        exact List.mem_cons_self _ _
      · simp [memB, hxy] at hm
        exact List.mem_cons_of_mem _ (ih hm)

theorem commonAncestors_nil {s : ObjectStore} {a b : Nat}
    (hno : ∀ h, ¬(isAncestor s h a = true ∧ isAncestor s h b = true)) :
    commonAncestors s a b = [] := by
  unfold commonAncestors
  rw [List.filter_eq_nil_iff]
  intro c hc hm
  exact hno c ⟨mem_ancestorsFuel hc, mem_ancestorsFuel (memB_mem hm)⟩

theorem mergeBase_noCommon {s : ObjectStore} {a b : Nat}
    (hc : commonAncestors s a b = []) : mergeBase s a b = .error .NoCommonAncestor := by
  simp [mergeBase, hc]

theorem isAncestor_root_eq {s : ObjectStore} {h a : Nat} (hp : parentsOf s a = [])
    (hh : isAncestor s h a = true) : h = a := by
  unfold isAncestor at hh
  simp only [isAncestorFuel, hp] at hh
  by_cases he : h = a
  · exact he
  · rw [if_neg he] at hh
    simp at hh

theorem sizePos_of_lookup {s : ObjectStore} {h : Nat} {o : GitObject}
    (hl : s.lookupH h = some o) : 1 ≤ s.size := by
  unfold ObjectStore.lookupH at hl
  unfold ObjectStore.size
  cases hobj : s.objects with
  | nil => rw [hobj] at hl; simp [assocFind] at hl
  | cons p r => simp

/-- C4: Object Store put is idempotent: for every content and kind,
putting the same object twice returns the same hash both times, performs
no duplicate write (the store after the second put is the store after the
first), and leaves the store size unchanged. -/
theorem putIdempotentSpec (s : ObjectStore) (o : GitObject) :
    ((s.put o).2.put o).1 = (s.put o).1 ∧ ((s.put o).2.put o).2 = (s.put o).2 ∧
    ((s.put o).2.put o).2.size = (s.put o).2.size := by
  have hc : (s.put o).2.containsB (hashObject o) = true := by
    have h := put_contains_self s o
    rwa [put_fst] at h
  set s1 := (s.put o).2 with hs1
  have h2 : s1.put o = (hashObject o, s1) := by
    unfold ObjectStore.put
    rw [if_pos hc]
  rw [h2]
  exact ⟨(put_fst s o).symm, rfl, rfl⟩

/-- C5: ancestry is reflexive, and every direct parent of a stored commit
is an ancestor of it. -/
theorem ancestryReflexiveParentSpec (s : ObjectStore) (cH pH : Nat) (cm : Commit)
    (hc : s.get cH = .ok (.commit cm)) (hp : pH ∈ cm.parents) :
    isAncestor s cH cH = true ∧ isAncestor s pH cH = true := by
  have hl : s.lookupH cH = some (.commit cm) := by
    unfold ObjectStore.get at hc
    cases hl2 : s.lookupH cH with
    | none => rw [hl2] at hc; cases hc
    | some v => rw [hl2] at hc; cases hc; rfl
  have hsz := sizePos_of_lookup hl
  constructor
  · unfold isAncestor
    simp [isAncestorFuel]
  · unfold isAncestor
    simp only [isAncestorFuel]
    by_cases hpe : pH = cH
    · simp [hpe]
    · rw [if_neg hpe]
      have hpar : parentsOf s cH = cm.parents := by
        unfold parentsOf
        rw [hc]
      rw [hpar, List.any_eq_true]
      refine ⟨pH, hp, ?_⟩
      obtain ⟨m, hm⟩ : ∃ m, s.size = m + 1 := ⟨s.size - 1, by omega⟩
      rw [hm]
      simp [isAncestorFuel]

/-- C5 witness: in R3, commit B is its own ancestor and its direct parent
A is an ancestor of B. -/
theorem ancestryReflexiveParent_witness :
    isAncestor R3.store (hashObject cB3O) (hashObject cB3O) = true ∧
    isAncestor R3.store (hashObject cA3O) (hashObject cB3O) = true :=
  ancestryReflexiveParentSpec R3.store (hashObject cB3O) (hashObject cA3O)
    ⟨hashObject tB3O, [hashObject cA3O], "au", "b", 2⟩ (by decide) (by decide)

/-- C6: committing a tree equal to the branch tip's tree on an existing
branch fails with NoChanges, creating nothing. -/
theorem commitNoChangesSpec (r : Repo) (br : String) (treeH : Nat) (msg author : String)
    (ts : Nat) (tip : Nat) (tes : List TreeEntry) (tc : Commit)
    (h1 : r.store.get treeH = .ok (.tree tes))
    (h2 : r.refs.get br = .ok tip)
    (h3 : loadCommit r.store tip = .ok tc)
    (h4 : tc.tree = treeH) :
    Repo.commit r br treeH msg author ts = .error .NoChanges := by
  simp only [Repo.commit, h1, h2, h3]
  rw [if_pos h4]

/-- C6 witness: recommitting the tree at the tip of R1's main branch
fails with NoChanges. -/
theorem commitNoChanges_witness :
    Repo.commit R1 "main" (hashObject tOO) "m" "a" 7 = .error .NoChanges :=
  commitNoChangesSpec R1 "main" (hashObject tOO) "m" "a" 7 (hashObject cOO) oesR1
    ⟨hashObject tOO, [hashObject cBO], "au", "ours", 2⟩
    (by decide) (by decide) (by decide) (by decide)

/-- C7: a Conflicted merge changes nothing: the branch ref and the store
are exactly as before the call, and only resolveAndCommit finalization
moves the target branch ref (to the commit it creates). -/
theorem mergeConflictedFrameSpec (r : Repo) (intoB fromB author msg : String) (ts : Nat)
    (cs : List Conflict) (r2 : Repo)
    (h : Repo.merge r intoB fromB author msg ts = .ok (.Conflicted cs, r2)) :
    r2.refs = r.refs ∧ r2.store = r.store ∧
    (∀ (au2 m2 : String) (ts2 : Nat) (rs : List (String × List Nat)) (p : Nat × Repo),
      Repo.resolveAndCommit r intoB fromB au2 m2 ts2 rs = .ok p →
      p.2.refs = r.refs.set intoB p.1) := by
  have hframe : r2.refs = r.refs ∧ r2.store = r.store := by
    unfold Repo.merge at h
    iterate 12 (all_goals try (split at h))
    all_goals try simp_all
    all_goals (split at h <;> simp_all)
  refine ⟨hframe.1, hframe.2, ?_⟩
  intro au2 m2 ts2 rs p hp
  simp only [Repo.resolveAndCommit] at hp
  split at hp
  · cases hp
  · split at hp
    · cases hp
    · cases hp
      rfl

/-- C7 witness: the conflicted merge of R1 leaves R1 untouched. -/
theorem mergeConflictedFrame_witness :
    R1.refs = R1.refs ∧ R1.store = R1.store ∧
    (∀ (au2 m2 : String) (ts2 : Nat) (rs : List (String × List Nat)) (p : Nat × Repo),
      Repo.resolveAndCommit R1 "main" "feature" au2 m2 ts2 rs = .ok p →
      p.2.refs = R1.refs.set "main" p.1) :=
  mergeConflictedFrameSpec R1 "main" "feature" "au" "m" 9
    [⟨"f", some ⟨"f", 644, hashObject bxO, EntryKind.blob⟩,
      some ⟨"f", 644, hashObject byO, EntryKind.blob⟩,
      some ⟨"f", 644, hashObject bzO, EntryKind.blob⟩⟩] R1 (by decide)

/-- C2: when the merge base is the ours tip, merge fast-forwards: the
outcome is Clean with theirs's tree, the ref moves to the theirs tip, no
commit is created (the store is untouched); symmetrically, when the base
is the theirs tip the result is ours's tree, and both Clean kinds are
distinct from a true three-way merge in the result type. -/
theorem mergeFastForwardSpec (r : Repo) (intoB fromB author msg : String) (ts : Nat)
    (oursTip theirsTip : Nat) (oc tc : Commit)
    (h1 : r.refs.get intoB = .ok oursTip)
    (h2 : r.refs.get fromB = .ok theirsTip)
    (h3 : loadCommit r.store oursTip = .ok oc)
    (h4 : loadCommit r.store theirsTip = .ok tc) :
    (mergeBase r.store oursTip theirsTip = .ok oursTip →
      Repo.merge r intoB fromB author msg ts =
        .ok (.Clean tc.tree .fastForward, { r with refs := r.refs.set intoB theirsTip })) ∧
    (mergeBase r.store oursTip theirsTip = .ok theirsTip →
      ∃ k r2, Repo.merge r intoB fromB author msg ts = .ok (.Clean oc.tree k, r2) ∧
        k ≠ CleanKind.threeWay ∧ r2.store = r.store) ∧
    CleanKind.fastForward ≠ CleanKind.threeWay ∧
    CleanKind.alreadyUpToDate ≠ CleanKind.threeWay := by
  refine ⟨?_, ?_, by simp, by simp⟩
  · intro hmb
    simp [Repo.merge, h1, h2, hmb, h4]
  · intro hmb
    by_cases he : oursTip = theirsTip
    · subst he
      have hoc : oc = tc := by
        rw [h3] at h4
        cases h4
        rfl
      subst hoc
      refine ⟨CleanKind.fastForward, { r with refs := r.refs.set intoB oursTip }, ?_, by simp, rfl⟩
      simp [Repo.merge, h1, h2, hmb, h3]
    · refine ⟨CleanKind.alreadyUpToDate, r, ?_, by simp, rfl⟩
      have hne : ¬ (theirsTip = oursTip) := fun hx => he hx.symm
      simp [Repo.merge, h1, h2, hmb, h3, hne]

/-- C2 witness: in R3 the merge base of main and dev is main's tip, and
merging dev into main fast-forwards to dev's tree. -/
theorem mergeFastForward_witness :
    mergeBase R3.store (hashObject cA3O) (hashObject cB3O) = .ok (hashObject cA3O) ∧
    Repo.merge R3 "main" "dev" "au" "m" 9 =
      .ok (.Clean (hashObject tB3O) .fastForward,
        { R3 with refs := R3.refs.set "main" (hashObject cB3O) }) := by
  refine ⟨by decide, ?_⟩
  exact (mergeFastForwardSpec R3 "main" "dev" "au" "m" 9 (hashObject cA3O) (hashObject cB3O)
    ⟨hashObject tA3O, [], "au", "a", 1⟩ ⟨hashObject tB3O, [hashObject cA3O], "au", "b", 2⟩
    (by decide) (by decide) (by decide) (by decide)).1 (by decide)

/-- C3: two commits with no common ancestor make mergeBase fail with
NoCommonAncestor, and merging branches at such tips fails with
UnrelatedHistories, producing no tree and no conflict list. -/
theorem mergeUnrelatedHistoriesSpec (r : Repo) (intoB fromB author msg : String) (ts : Nat)
    (a b : Nat)
    (h1 : r.refs.get intoB = .ok a) (h2 : r.refs.get fromB = .ok b)
    (hno : ∀ h, ¬(isAncestor r.store h a = true ∧ isAncestor r.store h b = true)) :
    mergeBase r.store a b = .error .NoCommonAncestor ∧
    Repo.merge r intoB fromB author msg ts = .error .UnrelatedHistories := by
  have hmb := mergeBase_noCommon (commonAncestors_nil hno)
  refine ⟨hmb, ?_⟩
  simp [Repo.merge, h1, h2, hmb]

/-- C3 witness: R4's two root commits are unrelated, so the merge fails
with UnrelatedHistories. -/
theorem mergeUnrelated_witness :
    R4.refs.get "main" = .ok (hashObject c41O) ∧
    R4.refs.get "other" = .ok (hashObject c42O) ∧
    Repo.merge R4 "main" "other" "au" "m" 9 = .error .UnrelatedHistories := by
  refine ⟨by decide, by decide, ?_⟩
  refine (mergeUnrelatedHistoriesSpec R4 "main" "other" "au" "m" 9
    (hashObject c41O) (hashObject c42O) (by decide) (by decide) ?_).2
  intro h hh
  have e1 := isAncestor_root_eq (s := R4.store) (a := hashObject c41O) (by decide) hh.1
  have e2 := isAncestor_root_eq (s := R4.store) (a := hashObject c42O) (by decide) hh.2
  subst e1
  exact absurd e2 (by decide)

/-- C1 (amended): the base tree maps f to "x", ours maps f to "y", theirs
maps f to "z", and merge returns Conflicted listing f with the three
entries; in general every path changed differently in ours and theirs
relative to base (including delete-versus-modify and kind mismatches) is
recorded as a conflict with its three-sided entries, except when both
sides hold tree-kind entries: those are merged recursively, with
conflicts recorded at deeper paths. -/
theorem mergeConflictDetectionAmended :
    (Repo.merge R1 "main" "feature" "au" "m" 9 =
      .ok (.Conflicted [⟨"f", some ⟨"f", 644, hashObject bxO, EntryKind.blob⟩,
        some ⟨"f", 644, hashObject byO, EntryKind.blob⟩,
        some ⟨"f", 644, hashObject bzO, EntryKind.blob⟩⟩], R1)) ∧
    (∀ (fuel : Nat) (s : ObjectStore) (b o t : List TreeEntry) (pa n : String),
      n ∈ unionNames b o t →
      entrySig (findEntry o n) ≠ entrySig (findEntry b n) →
      entrySig (findEntry t n) ≠ entrySig (findEntry b n) →
      entrySig (findEntry o n) ≠ entrySig (findEntry t n) →
      bothTrees (findEntry o n) (findEntry t n) = false →
      Conflict.mk (pa ++ n) (findEntry b n) (findEntry o n) (findEntry t n) ∈
        (mergeEntriesFuel (fuel + 1) s b o t pa).2.2) := by
  constructor
  · decide
  · intro fuel s b o t pa n hmem h1 h2 h3 h4
    simp only [mergeEntriesFuel]
    exact mergeNamesF_conflict_mem (unionNames b o t) s n hmem h1 h2 h3 h4

/-- C1 witness: the general conflict rule applied to R1's trees at path f. -/
theorem mergeConflictDetection_witness :
    "f" ∈ unionNames besR1 oesR1 tesR1 ∧
    Conflict.mk ("" ++ "f") (findEntry besR1 "f") (findEntry oesR1 "f") (findEntry tesR1 "f") ∈
      (mergeEntriesFuel 10 R1.store besR1 oesR1 tesR1 "").2.2 :=
  ⟨by decide, mergeConflictDetectionAmended.2 9 R1.store besR1 oesR1 tesR1 "" "f"
    (by decide) (by decide) (by decide) (by decide) (by decide)⟩

/-- C1 counterexample: in R2 the path d is added differently in ours and
in theirs (its entry signatures differ pairwise from base and from each
other), yet merge returns a Clean three-way outcome, so d is not recorded
as a conflict: the claim's universal per-path conflict rule is false as
stated when both sides hold tree-kind entries. -/
theorem mergeConflictDetection_cx :
    entrySig (findEntry oesR2 "d") ≠ entrySig (findEntry besR2 "d") ∧
    entrySig (findEntry tesR2 "d") ≠ entrySig (findEntry besR2 "d") ∧
    entrySig (findEntry oesR2 "d") ≠ entrySig (findEntry tesR2 "d") ∧
    isConflictedOutcome (Repo.merge R2 "main" "feature" "au" "m" 9) = false ∧
    isCleanThreeWay (Repo.merge R2 "main" "feature" "au" "m" 9) = true :=
  ⟨by decide, by decide, by decide, by decide, by decide⟩

theorem objRefsOk_tree (s : ObjectStore) (es : List TreeEntry) :
    objRefsOk s (GitObject.tree es) = entriesOk s es := rfl

theorem entriesOk_loadTree {s : ObjectStore} {h : Nat} {es : List TreeEntry}
    (hcl : storeClosed s = true) (hg : loadTreeEntries s h = .ok es) :
    entriesOk s es = true := by
  unfold loadTreeEntries at hg
  cases hget : s.get h with
  | error e2 => rw [hget] at hg; cases hg
  | ok v =>
      rw [hget] at hg
      cases v with
      | blob bs => cases hg
      | tree es2 =>
          cases hg
          unfold ObjectStore.get at hget
          cases hl : s.lookupH h with
          | none => rw [hl] at hget; cases hget
          | some w =>
              rw [hl] at hget
              cases hget
              exact storeClosed_lookup hcl hl
      | commit c => cases hg

/-- C8: the core's operations preserve the data-model invariants.  A put
of an object whose references are already stored keeps the store closed
(write-before-reference) and content-addressed and never mutates or
deletes a stored object (StoreLe); the facade operations commit,
createBranch and merge preserve the full repository invariant — stored
trees and commits only reference stored hashes, refs only point at stored
commits — and only ever extend the store. -/
theorem coreOpsPreserveInvariants :
    (∀ (s : ObjectStore) (o : GitObject), storeClosed s = true → contentAddressedB s = true →
      objRefsOk s o = true →
      StoreLe s (s.put o).2 ∧ storeClosed (s.put o).2 = true ∧
        contentAddressedB (s.put o).2 = true) ∧
    (∀ (r : Repo) (br : String) (tH : Nat) (m au : String) (ts : Nat) (res : Nat × Repo),
      Repo.Inv r → Repo.commit r br tH m au ts = .ok res →
      Repo.Inv res.2 ∧ StoreLe r.store res.2.store) ∧
    (∀ (r : Repo) (n : String) (c : Nat) (r2 : Repo),
      Repo.Inv r → Repo.createBranch r n c = .ok r2 →
      Repo.Inv r2 ∧ StoreLe r.store r2.store) ∧
    (∀ (r : Repo) (intoB fromB au m : String) (ts : Nat) (res : MergeOutcome × Repo),
      Repo.Inv r → Repo.merge r intoB fromB au m ts = .ok res →
      Repo.Inv res.2 ∧ StoreLe r.store res.2.store) := by
  refine ⟨?_, ?_, ?_, ?_⟩
  · intro s o hcl hca ho
    exact ⟨put_le s o, storeClosed_put hcl ho, contentAddressed_put o hca⟩
  · intro r br tH m au ts res hInv hc
    obtain ⟨hcl, hca, hro⟩ := hInv
    unfold Repo.commit at hc
    split at hc
    · rename_i tes hget
      have htH : r.store.containsB tH = true := by
        unfold ObjectStore.get at hget
        unfold ObjectStore.containsB
        cases hl : r.store.lookupH tH with
        | none => rw [hl] at hget; cases hget
        | some w => rfl
      split at hc
      · rename_i tip heq
        split at hc
        · rename_i tc heqc
          split at hc
          · cases hc
          · cases hc
            have htip : r.store.containsB tip = true :=
              isCommitHash_containsB (refsOk_get hro heq)
            have hobj : objRefsOk r.store
                (GitObject.commit ⟨tH, [tip], au, m, ts⟩) = true := by
              unfold objRefsOk
              simp only [List.all_cons, List.all_nil, Bool.and_true, Bool.and_eq_true]
              exact ⟨htH, htip⟩
            refine ⟨⟨storeClosed_put hcl hobj, contentAddressed_put _ hca, ?_⟩, put_le _ _⟩
            exact refsOk_set (refsOk_le (put_le _ _) hro) (isCommitHash_put_commit _ hca)
        · cases hc
      · cases hc
        have hobj : objRefsOk r.store (GitObject.commit ⟨tH, [], au, m, ts⟩) = true := by
          unfold objRefsOk
          simp only [List.all_nil, Bool.and_true]
          exact htH
        refine ⟨⟨storeClosed_put hcl hobj, contentAddressed_put _ hca, ?_⟩, put_le _ _⟩
        exact refsOk_set (refsOk_le (put_le _ _) hro) (isCommitHash_put_commit _ hca)
    · cases hc
  · intro r n c r2 hInv hc
    obtain ⟨hcl, hca, hro⟩ := hInv
    unfold Repo.createBranch at hc
    split at hc
    · cases hc
    · split at hc
      · rename_i hcomm
        cases hc
        exact ⟨⟨hcl, hca, refsOk_set hro hcomm⟩, storeLe_refl _⟩
      · cases hc
  · intro r intoB fromB au m ts res hInv hm
    obtain ⟨hcl, hca, hro⟩ := hInv
    simp only [Repo.merge] at hm
    split at hm
    · cases hm
    · rename_i oursTip heq1
      split at hm
      · cases hm
      · rename_i theirsTip heq2
        split at hm
        · cases hm
        · rename_i base heq3
          split at hm
          · split at hm
            · cases hm
            · rename_i tc heqtc
              cases hm
              refine ⟨⟨hcl, hca, ?_⟩, storeLe_refl _⟩
              exact refsOk_set hro (refsOk_get hro heq2)
          · split at hm
            · split at hm
              · cases hm
              · rename_i oc heqoc
                cases hm
                exact ⟨⟨hcl, hca, hro⟩, storeLe_refl _⟩
            · split at hm
              · rename_i bc oc tc heqb heqo heqt
                split at hm
                · rename_i bes oes tes heqbes heqoes heqtes
                  split at hm
                  · cases hm
                    have hb := entriesOk_loadTree hcl heqbes
                    have ho := entriesOk_loadTree hcl heqoes
                    have ht := entriesOk_loadTree hcl heqtes
                    obtain ⟨hle1, hcl1, hca1, hes1⟩ :=
                      mergeEntriesFuel_closure (r.store.size + 1) r.store bes oes tes ""
                        hcl hca hb ho ht
                    have hle2 := put_le (mergeEntriesFuel (r.store.size + 1) r.store
                      bes oes tes "").1 (GitObject.tree (mergeEntriesFuel (r.store.size + 1)
                        r.store bes oes tes "").2.1)
                    have hobj1 : objRefsOk (mergeEntriesFuel (r.store.size + 1) r.store
                        bes oes tes "").1 (GitObject.tree (mergeEntriesFuel (r.store.size + 1)
                        r.store bes oes tes "").2.1) = true := by
                      rw [objRefsOk_tree]
                      exact hes1
                    have hcl2 := storeClosed_put hcl1 hobj1
                    have hca2 := contentAddressed_put (GitObject.tree
                      (mergeEntriesFuel (r.store.size + 1) r.store bes oes tes "").2.1) hca1
                    have hcO : r.store.containsB oursTip = true :=
                      isCommitHash_containsB (refsOk_get hro heq1)
                    have hcT : r.store.containsB theirsTip = true :=
                      isCommitHash_containsB (refsOk_get hro heq2)
                    have hle12 := storeLe_trans hle1 hle2
                    have hobj : objRefsOk ((mergeEntriesFuel (r.store.size + 1) r.store
                        bes oes tes "").1.put (GitObject.tree (mergeEntriesFuel
                        (r.store.size + 1) r.store bes oes tes "").2.1)).2
                        (GitObject.commit ⟨((mergeEntriesFuel (r.store.size + 1) r.store
                          bes oes tes "").1.put (GitObject.tree (mergeEntriesFuel
                          (r.store.size + 1) r.store bes oes tes "").2.1)).1,
                          [oursTip, theirsTip], au, m, ts⟩) = true := by
                      unfold objRefsOk
                      simp only [List.all_cons, List.all_nil, Bool.and_true, Bool.and_eq_true]
                      exact ⟨put_contains_self _ _,
                        le_contains hle12 hcO, le_contains hle12 hcT⟩
                    refine ⟨⟨storeClosed_put hcl2 hobj, contentAddressed_put _ hca2, ?_⟩,
                      storeLe_trans hle12 (put_le _ _)⟩
                    exact refsOk_set (refsOk_le (storeLe_trans hle12 (put_le _ _)) hro)
                      (isCommitHash_put_commit _ hca2)
                  · cases hm
                    exact ⟨⟨hcl, hca, hro⟩, storeLe_refl _⟩
                · cases hm
              · cases hm

/-- C8 witness: committing a new tree on R1's main branch preserves the
repository invariant and only extends the store. -/
theorem coreOpsPreserve_witness :
    Repo.Inv R1 ∧
    Repo.commit R1 "main" (hashObject tTO) "m" "a" 7 = .ok (hashObject cNewO, R1after) ∧
    Repo.Inv R1after ∧ StoreLe R1.store R1after.store := by
  refine ⟨by decide, by decide, ?_, ?_⟩
  · exact (coreOpsPreserveInvariants.2.1 R1 "main" (hashObject tTO) "m" "a" 7
      (hashObject cNewO, R1after) (by decide) (by decide)).1
  · exact (coreOpsPreserveInvariants.2.1 R1 "main" (hashObject tTO) "m" "a" 7
      (hashObject cNewO, R1after) (by decide) (by decide)).2

end VC

namespace PyGit

/-- C9: run_git_command either returns the CompletedProcess of a
successfully exiting git command or raises GitOperationError: a nonzero
exit is converted to GitOperationError carrying the caller-supplied
message and the command's stderr, a missing git executable is converted
to a fixed install-git message, and every possible subprocess outcome
maps to one of these two results — never None, and neither underlying
exception escapes. -/
theorem run_git_command_spec (outcome : RunOutcome) (msg : String) :
    (∀ p, run_git_command (RunOutcome.success p) msg = PyOutcome.returns p) ∧
    (∀ st, run_git_command (RunOutcome.nonzeroExit st) msg =
      PyOutcome.raisesGitOperationError (msg ++ ": " ++ st)) ∧
    (run_git_command RunOutcome.execNotFound msg =
      PyOutcome.raisesGitOperationError "Git executable not found. Please install Git.") ∧
    ((∃ p, run_git_command outcome msg = PyOutcome.returns p ∧
        outcome = RunOutcome.success p) ∨
      (∃ s, run_git_command outcome msg = PyOutcome.raisesGitOperationError s)) := by
  refine ⟨fun p => rfl, fun st => rfl, rfl, ?_⟩
  cases outcome with
  | success p => exact Or.inl ⟨p, rfl, rfl⟩
  | nonzeroExit st => exact Or.inr ⟨msg ++ ": " ++ st, rfl⟩
  | execNotFound => exact Or.inr ⟨_, rfl⟩

/-- C10: after a constructor run whose git init succeeded, the repository
directory contains a .git entry and is non-empty, so every subsequent
clone_repository call returns False and never invokes the git clone
subprocess. -/
theorem cloneAfterInitReturnsFalse (d : DirState) (url : String) (ok : Bool) :
    clone_repository (ensure_repo_exists d true) url ok =
      { returned := false, invokedClone := false } := by
  obtain ⟨pe, es⟩ := d
  cases pe
  · simp [ensure_repo_exists, clone_repository]
  · by_cases hg : ".git" ∈ es
    · have hne : es ≠ [] := by
        rintro rfl
        cases hg
      simp [ensure_repo_exists, clone_repository, hg, hne]
    · simp [ensure_repo_exists, clone_repository, hg]

end PyGit

